import Mathlib

/-!
Verification development for the obsidian-note-thumbnails plugin.

The TypeScript sources (src/main.ts and src/utils.ts) are shallowly embedded
below.  JavaScript strings are Lean `String`s; the character-level operations
(`split('/')`, `replace`, `includes`, `trim`, `toLowerCase`) are embedded as
structural recursions over `List Char` so that every definition evaluates in
the kernel.  The DOM fragments the plugin touches are embedded as explicit
record states: a cover element is its inline background styles plus its two
data attributes; a card is its `[data-property="file.name"]` text (absent when
the element is missing) plus its optional `.bases-cards-cover` child.
JavaScript `Map` objects are association lists in insertion order, and JS
truthiness of `getAttribute` results (null and the empty string are falsy) is
made explicit.
-/

/-! ## Character-level string operations -/

/-- `startsWithL pat l` : does `l` start with `pat`?  (Used to embed the
substring search of `String.prototype.includes` and `replace`.) -/
def startsWithL : List Char → List Char → Bool
  | [], _ => true
  | _ :: _, [] => false
  | a :: as, b :: bs => a == b && startsWithL as bs

/-- `containsSubL pat l` : does `l` contain `pat` as a contiguous substring?
Embeds JavaScript `l.includes(pat)`. -/
def containsSubL (pat : List Char) : List Char → Bool
  | [] => startsWithL pat []
  | c :: cs => startsWithL pat (c :: cs) || containsSubL pat cs

/-- Embeds `s.includes(t)` from utils.ts line 61. -/
def jsIncludes (s t : String) : Bool := containsSubL t.data s.data

/-- Delete the first occurrence of `pat`; embeds JavaScript
`s.replace(pat, '')` (string pattern, first occurrence only). -/
def removeFirstOcc (pat : List Char) : List Char → List Char
  | [] => []
  | c :: cs =>
    if startsWithL pat (c :: cs) then (c :: cs).drop pat.length
    else c :: removeFirstOcc pat cs

/-- Embeds JavaScript `filePath.split('/')`: `""` splits to `[""]`, a
trailing separator yields a trailing empty segment. -/
def splitOnSlash : List Char → List (List Char)
  | [] => [[]]
  | c :: cs =>
    let r := splitOnSlash cs
    if c == '/' then [] :: r else (c :: r.headD []) :: r.tail

/-- Whitespace characters removed by the embedded `trim`. -/
def isWS (c : Char) : Bool := c == ' ' || c == '\t' || c == '\n' || c == '\r'

def dropLeadingWS : List Char → List Char
  | [] => []
  | c :: cs => if isWS c then dropLeadingWS cs else c :: cs

/-- Embeds JavaScript `s.trim()` (utils.ts line 58). -/
def jsTrim (s : String) : String :=
  String.mk (dropLeadingWS (dropLeadingWS s.data.reverse).reverse)

/-- Embeds JavaScript `s.toLowerCase()` (main.ts line 87). -/
def lowerStr (s : String) : String := String.mk (s.data.map Char.toLower)

/-! ## utils.ts: getFileNameFromPath -/

/-- utils.ts lines 46-48:
`filePath.split('/').pop()?.replace('.canvas', '') || ''`.
`pop` of a `split` result is the last segment (never `undefined` since `split`
returns a non-empty array); `replace` deletes the first occurrence of
`".canvas"`; `|| ''` maps the empty string to itself. -/
def getFileNameFromPath (filePath : String) : String :=
  let seg := (splitOnSlash filePath.data).getLastD []
  String.mk (removeFirstOcc ".canvas".data seg)

/-- Modelled from the spec's words, for comparison with the source function
`getFileNameFromPath`: "the final path segment with the canvas-type suffix
stripped". -/
def specComparisonKey (p : String) : String :=
  let seg := (splitOnSlash p.data).getLastD []
  if startsWithL ".canvas".data.reverse seg.reverse then
    String.mk (seg.take (seg.length - ".canvas".data.length))
  else String.mk seg

/-! ## DOM model: cover and card elements -/

/-- The state of a `.bases-cards-cover` element: the four inline background
styles written by `setCardThumbnail` and the two data attributes.
`none` = attribute absent (`getAttribute` returns `null`). -/
structure Cover where
  backgroundImage : String
  backgroundSize : String
  backgroundRepeat : String
  backgroundPosition : String
  dataCanvasThumbnail : Option String
  dataImagePath : Option String
deriving DecidableEq

/-- A `.bases-cards-item` element: the trimmable text of its
`[data-property="file.name"]` descendant (`none` when that descendant is
missing) and its optional `.bases-cards-cover` child. -/
structure Card where
  fileNameText : Option String
  cover : Option Cover
deriving DecidableEq

/-- JS truthiness of a `getAttribute` result: `null` and `""` are falsy
(utils.ts line 30 tests `!coverElement.getAttribute('data-canvas-thumbnail')`). -/
def attrTruthy : Option String → Bool
  | none => false
  | some s => !(s == "")

/-- Truthiness of the marker on an optional cover element. -/
def coverTruthy : Option Cover → Bool
  | none => false
  | some cov => attrTruthy cov.dataCanvasThumbnail

/-- utils.ts line 61: `cardFileName === fileName || cardFileName?.includes(fileName)`
where `cardFileName = nameElement?.textContent?.trim()`. -/
def cardMatches (fileName : String) (c : Card) : Bool :=
  match c.fileNameText.map jsTrim with
  | none => false
  | some n => n == fileName || jsIncludes n fileName

/-- utils.ts lines 53-67: first card in document order whose name text
matches, else `null`. -/
def findCardByFileName (cards : List Card) (fileName : String) : Option Card :=
  match cards with
  | [] => none
  | c :: cs => if cardMatches fileName c then some c else findCardByFileName cs fileName

/-! ## utils.ts: setCardThumbnail and addCardThumbnails -/

/-- utils.ts lines 72-97.  `fsAdapter` embeds
`adapter instanceof FileSystemAdapter`; `resolve` embeds
`adapter.getResourcePath`.  Returns the new cover state together with a flag
recording whether the `console.error` branch (no file-system adapter) ran;
in that branch the cover is untouched. -/
def setCardThumbnail (fsAdapter : Bool) (resolve : String → String)
    (imagePath : String) (cover : Cover) (canvasPath : String) : Cover × Bool :=
  if fsAdapter then
    ({ backgroundImage := "url(\x27" ++ resolve imagePath ++ "\x27) !important"
       backgroundSize := "contain !important"
       backgroundRepeat := "no-repeat !important"
       backgroundPosition := "center !important"
       dataCanvasThumbnail := some canvasPath
       dataImagePath := some imagePath }, false)
  else (cover, true)

/-- One `data.forEach` iteration of `addCardThumbnails` (utils.ts lines
24-38), fused with the linear search of `findCardByFileName`: walk the cards
in document order; at the first card matching `fileName`, query its cover and,
when the cover exists and its marker attribute is falsy, call
`setCardThumbnail`.  Returns the updated card list, whether
`setCardThumbnail` was invoked (`updatedCount++`), and whether it reported an
internal error. -/
def decorateFirstMatch (fsAdapter : Bool) (resolve : String → String)
    (canvasPath imagePath fileName : String) : List Card → List Card × Bool × Bool
  | [] => ([], false, false)
  | c :: cs =>
    if cardMatches fileName c then
      match c.cover with
      | none => (c :: cs, false, false)
      | some cov =>
        if attrTruthy cov.dataCanvasThumbnail then (c :: cs, false, false)
        else
          let r := setCardThumbnail fsAdapter resolve imagePath cov canvasPath
          ({ c with cover := some r.1 } :: cs, true, r.2)
    else
      let res := decorateFirstMatch fsAdapter resolve canvasPath imagePath fileName cs
      (c :: res.1, res.2.1, res.2.2)

/-- The `data.forEach` loop of utils.ts lines 24-38 over the map entries
`(canvasPath, imagePath)` in insertion order, threading the card list and
accumulating `updatedCount` and the number of internal errors reported. -/
def reconcileList (fsAdapter : Bool) (resolve : String → String) :
    List (String × String) → List Card → List Card × Nat × Nat
  | [], cards => (cards, 0, 0)
  | e :: rest, cards =>
    let fileName := getFileNameFromPath e.1
    let r := decorateFirstMatch fsAdapter resolve e.1 e.2 fileName cards
    let rr := reconcileList fsAdapter resolve rest r.1
    (rr.1, (if r.2.1 then 1 else 0) + rr.2.1, (if r.2.2 then 1 else 0) + rr.2.2)

/-- Result of one `addCardThumbnails` call: the container's cards afterwards
(`none` when `.bases-cards-container` was absent), the final `updatedCount`,
and how many internal adapter errors were reported. -/
structure ReconResult where
  dom : Option (List Card)
  updatedCount : Nat
  errorCount : Nat
deriving DecidableEq

/-- utils.ts lines 9-41: bail out when the container is missing, otherwise
run the `forEach` loop over the map entries. -/
def addCardThumbnails (fsAdapter : Bool) (resolve : String → String)
    (data : List (String × String)) (dom : Option (List Card)) : ReconResult :=
  match dom with
  | none => ⟨none, 0, 0⟩
  | some cards =>
    let r := reconcileList fsAdapter resolve data cards
    ⟨some r.1, r.2.1, r.2.2⟩

/-! ## Clearing: onunload (main.ts 165-181) and clearAllThumbnails (utils.ts 102-113)

Both iterate `document.querySelectorAll('[data-canvas-thumbnail]')`, i.e. the
elements whose marker attribute is present (any value, empty included). -/

/-- main.ts lines 177-180: reset `backgroundImage` and remove
`data-canvas-thumbnail` on every element carrying the marker.  (It does not
touch `data-image-path`.) -/
def onunloadClearThumbnails (els : List Cover) : List Cover :=
  els.map fun el =>
    if el.dataCanvasThumbnail.isSome then
      { el with backgroundImage := "", dataCanvasThumbnail := none }
    else el

/-- utils.ts lines 102-113: reset `backgroundImage` and remove both
`data-canvas-thumbnail` and `data-image-path`. -/
def clearAllThumbnails (els : List Cover) : List Cover :=
  els.map fun el =>
    if el.dataCanvasThumbnail.isSome then
      { el with backgroundImage := "", dataCanvasThumbnail := none, dataImagePath := none }
    else el

/-! ## main.ts: the canvas scanner -/

/-- A vault file as the scanner sees it: `TFile.path` and `TFile.extension`. -/
structure VFile where
  path : String
  extension : String
deriving DecidableEq

/-- A node of a parsed canvas document: its optional `type` tag and optional
`file` path.  Absent or non-string fields are `none`. -/
structure CanvasNode where
  type : Option String
  file : Option String
deriving DecidableEq

/-- A parsed canvas document: `nodes` is `some` exactly when the `nodes`
field is present and is an array (main.ts line 82). -/
structure CanvasData where
  nodes : Option (List CanvasNode)
deriving DecidableEq

/-- main.ts line 71. -/
def pictureExtensions : List String :=
  ["jpg", "jpeg", "png", "webp", "bmp", "svg", "gif", "ico"]

/-- `this.app.vault.getAbstractFileByPath` over the modelled vault: the first
file with the given path. -/
def getAbstractFileByPath (vault : List VFile) (p : String) : Option VFile :=
  vault.find? fun f => f.path == p

/-- main.ts lines 85-91, the per-node test: `node.type === 'file' && node.file`
(JS truthiness: a missing or empty `file` is falsy), then the referenced file
must exist and its lowercased extension must be a picture extension.  Returns
the stored value `nodeFile.path` when the node qualifies. -/
def nodeImage (vault : List VFile) (n : CanvasNode) : Option String :=
  match n.type, n.file with
  | some t, some fp =>
    if t == "file" && !(fp == "") then
      match getAbstractFileByPath vault fp with
      | some nf =>
        if pictureExtensions.contains (lowerStr nf.extension) then some nf.path else none
      | none => none
    else none
  | _, _ => none

/-- main.ts lines 84-93: the `for ... break` loop — the first qualifying
node's image path, if any. -/
def firstImage (vault : List VFile) : List CanvasNode → Option String
  | [] => none
  | n :: ns =>
    match nodeImage vault n with
    | some p => some p
    | none => firstImage vault ns

/-- Processing of one canvas file (main.ts lines 77-98).  `parse` maps a path
to the parsed content: `none` embeds a `vault.read` or `JSON.parse` exception,
which the `try`/`catch` turns into "no entry".  A missing or non-array
`nodes` field also yields no entry. -/
def scanFile (vault : List VFile) (parse : String → Option CanvasData)
    (cf : VFile) : Option (String × String) :=
  match parse cf.path with
  | none => none
  | some data =>
    match data.nodes with
    | none => none
    | some ns => (firstImage vault ns).map fun img => (cf.path, img)

/-- JS `Map.set`: overwrite an existing key in place, else append. -/
def mapSet (m : List (String × String)) (k v : String) : List (String × String) :=
  if (m.map Prod.fst).contains k then
    m.map fun p => if p.1 == k then (k, v) else p
  else m ++ [(k, v)]

/-- JS `Map.clear` (main.ts line 75). -/
def mapClear (_m : List (String × String)) : List (String × String) := []

/-- JS `Map.get` as used through the produced map. -/
def mapLookup (m : List (String × String)) (k : String) : Option String :=
  (m.find? fun p => p.1 == k).map Prod.snd

/-- The `for (const canvasFile of canvasFiles)` loop of main.ts lines 77-98,
threading the map. -/
def scanLoop (vault : List VFile) (parse : String → Option CanvasData)
    (m : List (String × String)) : List VFile → List (String × String)
  | [] => m
  | cf :: rest =>
    match scanFile vault parse cf with
    | some kv => scanLoop vault parse (mapSet m kv.1 kv.2) rest
    | none => scanLoop vault parse m rest

/-- main.ts lines 69-101: filter the vault to `.canvas` files, clear the
previous map, and repopulate it. -/
def scanCanvasFiles (prev : List (String × String)) (vault : List VFile)
    (parse : String → Option CanvasData) : List (String × String) :=
  scanLoop vault parse (mapClear prev) (vault.filter fun f => f.extension == "canvas")

/-! ## main.ts: the debounce scheduler (lines 103-124)

The plugin keeps a single timeout handle `updateTimeout`; every scheduling
entry point first calls `clearTimeout(this.updateTimeout)` and then
`setTimeout`, so at most one timer is ever pending — modelled as an `Option`
slot holding the absolute fire time and the kind of the armed callback. -/

/-- Which callback the single pending timer would run. -/
inductive TimerKind where
  | update
  | decorate
deriving DecidableEq

/-- Scheduler state: the single pending-timer slot and the (absolute) times
at which a decorate pass (`addCardThumbnails`) actually ran. -/
structure SchedState where
  pending : Option (Nat × TimerKind)
  decorates : List Nat
deriving DecidableEq

/-- `scheduleUpdate()` called at time `t` (main.ts lines 111-116):
clearTimeout then setTimeout(500) arming the `updateCardThumbnails` callback. -/
def scheduleUpdateAt (t : Nat) (s : SchedState) : SchedState :=
  { s with pending := some (t + 500, TimerKind.update) }

/-- Firing the pending callback `k` at time `t`.  The `update` callback is
`updateCardThumbnails` (main.ts lines 103-109): clearTimeout then
setTimeout(200) arming the decorate pass.  The `decorate` callback runs
`addCardThumbnails` and leaves the slot empty. -/
def fireAt (t : Nat) (k : TimerKind) (s : SchedState) : SchedState :=
  match k with
  | TimerKind.update => { s with pending := some (t + 200, TimerKind.decorate) }
  | TimerKind.decorate => { pending := none, decorates := s.decorates ++ [t] }

/-- Fire the pending timer if it is due at time `t`. -/
def fireDue (t : Nat) (s : SchedState) : SchedState :=
  match s.pending with
  | some (ft, k) => if ft ≤ t then fireAt ft k s else s
  | none => s

/-- Fire every timer due at time `t`.  A chain is at most
`update → decorate`, so two passes fire everything due. -/
def fireAllDue (t : Nat) (s : SchedState) : SchedState := fireDue t (fireDue t s)

/-- Deliver a sequence of `scheduleUpdate()` calls at the given (increasing)
times, firing any timer that falls due before each call. -/
def runCalls : List Nat → SchedState → SchedState
  | [], s => s
  | t :: ts, s => runCalls ts (scheduleUpdateAt t (fireAllDue t s))

/-- Fire the pending timer unconditionally (used to drain after the last call). -/
def fireOne (s : SchedState) : SchedState :=
  match s.pending with
  | some (ft, k) => fireAt ft k s
  | none => s

/-- Run a burst of `scheduleUpdate()` calls from the idle state, then let the
remaining timers fire. -/
def runSystem (calls : List Nat) : SchedState :=
  fireOne (fireOne (runCalls calls ⟨none, []⟩))

/-! ## Demo inputs used by witnesses and counterexamples -/

/-- A pristine cover element: no styles, no attributes. -/
def emptyCover : Cover := ⟨"", "", "", "", none, none⟩

/-- A cover element exactly as `setCardThumbnail` leaves it. -/
def decoratedCoverDemo : Cover :=
  ⟨"url(x)", "contain", "no-repeat", "center", some "c.canvas", some "img.png"⟩

/-- The vault of spec §8 example 5. -/
def demoVault : List VFile :=
  [⟨"Projects/Alpha.canvas", "canvas"⟩, ⟨"Projects/cover.png", "png"⟩,
   ⟨"Projects/other.pdf", "pdf"⟩]

/-- Parsed contents for `demoVault`: `Projects/Alpha.canvas` has a png node
then a pdf node. -/
def demoParse (p : String) : Option CanvasData :=
  if p == "Projects/Alpha.canvas" then
    some ⟨some [⟨some "file", some "Projects/cover.png"⟩,
                ⟨some "file", some "Projects/other.pdf"⟩]⟩
  else none

/-- A vault with a malformed canvas between two good ones. -/
def demoVaultErr : List VFile :=
  [⟨"A.canvas", "canvas"⟩, ⟨"Bad.canvas", "canvas"⟩, ⟨"B.canvas", "canvas"⟩,
   ⟨"a.png", "png"⟩, ⟨"b.png", "png"⟩]

/-- Parsed contents for `demoVaultErr`: `Bad.canvas` fails to parse. -/
def demoParseErr (p : String) : Option CanvasData :=
  if p == "A.canvas" then some ⟨some [⟨some "file", some "a.png"⟩]⟩
  else if p == "B.canvas" then some ⟨some [⟨some "file", some "b.png"⟩]⟩
  else none

/-! ## Basic lemmas about the character-level operations -/

lemma startsWithL_eq_true_iff (p l : List Char) :
    startsWithL p l = true ↔ ∃ t, l = p ++ t := by
  induction p generalizing l with
  | nil =>
    simp only [startsWithL, List.nil_append, true_iff]
    exact ⟨l, rfl⟩
  | cons a as ih =>
    cases l with
    | nil => simp [startsWithL]
    | cons b bs =>
      simp only [startsWithL, Bool.and_eq_true, beq_iff_eq, List.cons_append, ih]
      constructor
      · rintro ⟨rfl, t, rfl⟩
        exact ⟨t, rfl⟩
      · rintro ⟨t, h⟩
        injection h with h1 h2
        exact ⟨h1.symm, t, h2⟩

lemma startsWithL_refl (l : List Char) : startsWithL l l = true :=
  (startsWithL_eq_true_iff l l).mpr ⟨[], by simp⟩

lemma containsSubL_eq_true_iff (p l : List Char) :
    containsSubL p l = true ↔ ∃ a b, l = a ++ p ++ b := by
  induction l with
  | nil =>
    simp only [containsSubL, startsWithL_eq_true_iff]
    constructor
    · rintro ⟨t, ht⟩
      exact ⟨[], t, by simpa using ht⟩
    · rintro ⟨a, b, h⟩
      have h' : a ++ (p ++ b) = [] := by simpa using h.symm
      have h2 : p ++ b = [] := (List.append_eq_nil.mp h').2
      exact ⟨b, h2.symm⟩
  | cons c cs ih =>
    simp only [containsSubL, Bool.or_eq_true, startsWithL_eq_true_iff, ih]
    constructor
    · rintro (⟨t, ht⟩ | ⟨a, b, hab⟩)
      · exact ⟨[], t, by simpa using ht⟩
      · exact ⟨c :: a, b, by simp [hab]⟩
    · rintro ⟨a, b, h⟩
      cases a with
      | nil => exact Or.inl ⟨b, by simpa using h⟩
      | cons a0 a' =>
        injection h with h1 h2
        exact Or.inr ⟨a', b, h2⟩

lemma containsSubL_nil_pat (l : List Char) : containsSubL [] l = true := by
  cases l <;> simp [containsSubL, startsWithL]

lemma containsSubL_cons_false {p : List Char} {c : Char} {cs : List Char}
    (h : containsSubL p (c :: cs) = false) : containsSubL p cs = false := by
  have := congrArg (fun b => b) h
  simp only [containsSubL, Bool.or_eq_false_iff] at h
  exact h.2

/-- Deleting the first occurrence of `P` from `xs ++ P` recovers `xs`,
provided `P` occurs nowhere earlier — i.e. not inside `xs ++ P.dropLast`. -/
lemma removeFirstOcc_append_self (P : List Char) (hP : P ≠ []) :
    ∀ xs : List Char, containsSubL P (xs ++ P.dropLast) = false →
      removeFirstOcc P (xs ++ P) = xs := by
  intro xs
  induction xs with
  | nil =>
    intro _
    obtain ⟨c, cs, rfl⟩ : ∃ c cs, P = c :: cs := by
      cases P with
      | nil => exact absurd rfl hP
      | cons c cs => exact ⟨c, cs, rfl⟩
    simp [removeFirstOcc, startsWithL_refl, List.drop_length]
  | cons x xs ih =>
    intro h
    have hsw : startsWithL P (x :: (xs ++ P)) = false := by
      by_contra hne
      have hsw' : startsWithL P (x :: (xs ++ P)) = true := by
        cases hb : startsWithL P (x :: (xs ++ P)) with
        | false => exact absurd hb hne
        | true => rfl
      obtain ⟨t, ht⟩ := (startsWithL_eq_true_iff _ _).mp hsw'
      have hlen : t.length = 1 + xs.length := by
        have := congrArg List.length ht
        simp [List.length_append] at this
        omega
      have htne : t ≠ [] := by
        intro hteq
        rw [hteq] at hlen
        simp at hlen
        omega
      have hPsplit := List.dropLast_append_getLast hP
      have htsplit := List.dropLast_append_getLast htne
      have heq : (x :: (xs ++ P.dropLast)) ++ [P.getLast hP]
          = (P ++ t.dropLast) ++ [t.getLast htne] := by
        calc (x :: (xs ++ P.dropLast)) ++ [P.getLast hP]
            = x :: (xs ++ (P.dropLast ++ [P.getLast hP])) := by simp
          _ = x :: (xs ++ P) := by rw [hPsplit]
          _ = P ++ t := ht
          _ = P ++ (t.dropLast ++ [t.getLast htne]) := by rw [htsplit]
          _ = (P ++ t.dropLast) ++ [t.getLast htne] := by simp
      have hmain : x :: (xs ++ P.dropLast) = P ++ t.dropLast :=
        (List.append_inj' heq rfl).1
      have : containsSubL P ((x :: xs) ++ P.dropLast) = true := by
        rw [containsSubL_eq_true_iff]
        exact ⟨[], t.dropLast, by simpa using hmain⟩
      rw [this] at h
      exact Bool.true_eq_false.mp h
    have hrec : containsSubL P (xs ++ P.dropLast) = false :=
      containsSubL_cons_false (by simpa using h)
    calc removeFirstOcc P ((x :: xs) ++ P)
        = removeFirstOcc P (x :: (xs ++ P)) := by simp
      _ = x :: removeFirstOcc P (xs ++ P) := by
          simp [removeFirstOcc, hsw]
      _ = x :: xs := by rw [ih hrec]

/-! ## C5: the comparison key -/

/-- C5 counterexample: the claim says the comparison key is the final path
segment with the canvas-type suffix stripped.  For the canvas path
`a.canvass.canvas` the source's `replace('.canvas', '')` deletes the FIRST
occurrence of `.canvas` (which starts inside the stem), producing
`as.canvas`, while stripping the suffix would produce `a.canvass`. -/
theorem getFileNameFromPath_not_suffix_strip :
    getFileNameFromPath "a.canvass.canvas" = "as.canvas" ∧
    specComparisonKey "a.canvass.canvas" = "a.canvass" ∧
    getFileNameFromPath "a.canvass.canvas" ≠ specComparisonKey "a.canvass.canvas" := by
  refine ⟨by decide, by decide, by decide⟩

/-- C5 (amended): the comparison key is the final path segment with the
FIRST occurrence of `".canvas"` deleted.  Whenever `".canvas"` occurs in the
final segment `base ++ ".canvas"` only as its suffix (equivalently, it does
not occur in `base ++ ".canva"`), this agrees with the claim: the key is the
suffix-stripped segment `base`.  In particular the key for
`Projects/Alpha.canvas` is `Alpha` (see the witness). -/
theorem getFileNameFromPath_amended (p base : String)
    (hseg : (splitOnSlash p.data).getLastD [] = base.data ++ ".canvas".data)
    (hocc : containsSubL ".canvas".data (base.data ++ ".canva".data) = false) :
    getFileNameFromPath p = base := by
  have hdrop : (".canvas".data).dropLast = ".canva".data := by decide
  have h : removeFirstOcc ".canvas".data (base.data ++ ".canvas".data) = base.data := by
    apply removeFirstOcc_append_self ".canvas".data (by decide)
    rw [hdrop]
    exact hocc
  show String.mk (removeFirstOcc ".canvas".data ((splitOnSlash p.data).getLastD [])) = base
  rw [hseg, h]

/-- C5 witness: the claim's own example. -/
theorem getFileNameFromPath_amended_witness :
    getFileNameFromPath "Projects/Alpha.canvas" = "Alpha" :=
  getFileNameFromPath_amended "Projects/Alpha.canvas" "Alpha" (by decide) (by decide)

/-! ## C6: card lookup -/

/-- The matching condition in the words of the spec: the card has a file-name
display element whose (trimmed) display text exactly equals or textually
contains the comparison key. -/
def matchesKey (fileName : String) (c : Card) : Prop :=
  ∃ t, c.fileNameText = some t ∧
    (jsTrim t = fileName ∨ ∃ a b, (jsTrim t).data = a ++ fileName.data ++ b)

lemma cardMatches_iff_matchesKey (fn : String) (c : Card) :
    cardMatches fn c = true ↔ matchesKey fn c := by
  unfold cardMatches matchesKey
  cases hc : c.fileNameText with
  | none => simp
  | some t =>
    simp only [Option.map_some', Bool.or_eq_true, beq_iff_eq, jsIncludes,
      containsSubL_eq_true_iff, Option.some.injEq]
    constructor
    · rintro (h | ⟨a, b, h⟩)
      · exact ⟨t, rfl, Or.inl h⟩
      · exact ⟨t, rfl, Or.inr ⟨a, b, h⟩⟩
    · rintro ⟨t', ht', (h | ⟨a, b, h⟩)⟩
      · exact Or.inl (ht' ▸ h)
      · exact Or.inr ⟨a, b, ht' ▸ h⟩

/-- C6: `findCardByFileName` returns `some c` exactly when `c` is the FIRST
card in document order whose display text equals or contains the key (every
earlier card fails to match), and returns `none` exactly when no card's
display text equals or contains the key. -/
theorem findCardByFileName_spec (cards : List Card) (fn : String) :
    (∀ c, findCardByFileName cards fn = some c ↔
      ∃ pre post, cards = pre ++ c :: post ∧ matchesKey fn c ∧
        ∀ c' ∈ pre, ¬ matchesKey fn c') ∧
    (findCardByFileName cards fn = none ↔ ∀ c ∈ cards, ¬ matchesKey fn c) := by
  induction cards with
  | nil =>
    constructor
    · intro c
      simp [findCardByFileName]
    · simp [findCardByFileName]
  | cons c0 cs ih =>
    cases h : cardMatches fn c0 with
    | true =>
      have hm : matchesKey fn c0 := (cardMatches_iff_matchesKey fn c0).mp h
      have hstep : findCardByFileName (c0 :: cs) fn = some c0 := by
        simp [findCardByFileName, h]
      constructor
      · intro c
        rw [hstep]
        simp only [Option.some.injEq]
        constructor
        · rintro rfl
          exact ⟨[], cs, rfl, hm, by simp⟩
        · rintro ⟨pre, post, hdec, hmc, hpre⟩
          cases pre with
          | nil =>
            have h1 : c0 = c := by
              have := congrArg (fun l => l.headD c0) hdec
              simpa using this
            exact h1
          | cons p pre' =>
            have h1 : c0 = p := by
              have := congrArg (fun l => l.headD c0) hdec
              simpa using this
            exact absurd (h1 ▸ hm) (hpre p (by simp))
      · rw [hstep]
        constructor
        · intro hf
          exact Option.noConfusion hf
        · intro hall
          exact absurd hm (hall c0 (by simp))
    | false =>
      have hm : ¬ matchesKey fn c0 := fun hk =>
        by simpa [h] using (cardMatches_iff_matchesKey fn c0).mpr hk
      have hstep : findCardByFileName (c0 :: cs) fn = findCardByFileName cs fn := by
        simp [findCardByFileName, h]
      constructor
      · intro c
        rw [hstep, (ih.1 c)]
        constructor
        · rintro ⟨pre, post, rfl, hmc, hpre⟩
          refine ⟨c0 :: pre, post, rfl, hmc, ?_⟩
          intro c' hc'
          rcases List.mem_cons.mp hc' with rfl | hc'
          · exact hm
          · exact hpre c' hc'
        · rintro ⟨pre, post, hdec, hmc, hpre⟩
          cases pre with
          | nil =>
            injection hdec with h1 h2
            exact absurd (h1 ▸ hmc) hm
          | cons p pre' =>
            injection hdec with h1 h2
            exact ⟨pre', post, h2, hmc, fun c' hc' => hpre c' (by simp [hc'])⟩
      · rw [hstep, ih.2]
        constructor
        · intro hall c hc
          rcases List.mem_cons.mp hc with rfl | hc
          · exact hm
          · exact hall c hc
        · intro hall c hc
          exact hall c (by simp [hc])

/-! ## C10: the empty comparison key -/

lemma cardMatches_empty_key (c : Card) :
    cardMatches "" c = c.fileNameText.isSome := by
  unfold cardMatches
  cases hc : c.fileNameText with
  | none => simp
  | some t =>
    simp only [Option.map_some', Option.isSome_some]
    have : jsIncludes (jsTrim t) "" = true := by
      unfold jsIncludes
      exact containsSubL_nil_pat _
    simp [this]

/-- C10: a canvas path whose final segment is exactly `.canvas` yields the
empty comparison key; with the empty key, card lookup returns the first card
that has a file-name display element at all (every display text contains the
empty string), and such a map entry does decorate an unrelated card (here a
card named `Totally Unrelated`) instead of being skipped. -/
theorem emptyKey_matches_first_named_card :
    getFileNameFromPath "Projects/.canvas" = "" ∧
    (∀ cards : List Card,
      findCardByFileName cards (getFileNameFromPath "Projects/.canvas") =
        cards.find? fun c => c.fileNameText.isSome) ∧
    (addCardThumbnails true (fun s => s) [("Projects/.canvas", "img.png")]
      (some [⟨some "Totally Unrelated", some emptyCover⟩])).updatedCount = 1 := by
  have hkey : getFileNameFromPath "Projects/.canvas" = "" := by decide
  refine ⟨hkey, ?_, by decide⟩
  intro cards
  rw [hkey]
  induction cards with
  | nil => rfl
  | cons c cs ih =>
    show (if cardMatches "" c then some c else findCardByFileName cs "") = _
    rw [cardMatches_empty_key]
    cases hc : c.fileNameText.isSome with
    | true => simp [List.find?_cons, hc]
    | false => simpa [List.find?_cons, hc] using ih

/-! ## C4: clearing -/

/-- C4 counterexample: on a decorated element (`data-canvas-thumbnail` and
`data-image-path` both set), `onunload` removes the marker attribute but
leaves `data-image-path` in place, contradicting the claim that clearing via
plugin unload removes the secondary `data-image-path` attribute as well. -/
theorem onunload_keeps_data_image_path :
    ((onunloadClearThumbnails [decoratedCoverDemo]).headD emptyCover).dataCanvasThumbnail
        = none ∧
    ((onunloadClearThumbnails [decoratedCoverDemo]).headD emptyCover).backgroundImage = "" ∧
    ((onunloadClearThumbnails [decoratedCoverDemo]).headD emptyCover).dataImagePath
        = some "img.png" := by
  refine ⟨by decide, by decide, by decide⟩

/-- C4 (amended): `clearAllThumbnails` resets the background-image style and
removes both `data-canvas-thumbnail` and `data-image-path` from every element
carrying the marker, while `onunload` resets the background-image style and
removes only `data-canvas-thumbnail`, leaving `data-image-path` untouched;
both leave unmarked elements unchanged, and both are no-ops when no element
is decorated. -/
theorem clearing_spec (els : List Cover) :
    List.Forall₂ (fun before after =>
      if before.dataCanvasThumbnail.isSome then
        after = { before with backgroundImage := "", dataCanvasThumbnail := none,
                              dataImagePath := none }
      else after = before) els (clearAllThumbnails els) ∧
    List.Forall₂ (fun before after =>
      if before.dataCanvasThumbnail.isSome then
        after = { before with backgroundImage := "", dataCanvasThumbnail := none }
      else after = before) els (onunloadClearThumbnails els) ∧
    ((∀ el ∈ els, el.dataCanvasThumbnail = none) →
      clearAllThumbnails els = els ∧ onunloadClearThumbnails els = els) := by
  refine ⟨?_, ?_, ?_⟩
  · rw [clearAllThumbnails, List.forall₂_map_right_iff, List.forall₂_same]
    intro el _
    split <;> rfl
  · rw [onunloadClearThumbnails, List.forall₂_map_right_iff, List.forall₂_same]
    intro el _
    split <;> rfl
  · intro h
    constructor
    · rw [clearAllThumbnails]
      rw [show els.map _ = els.map id from
        List.map_congr_left fun el hel => by simp [h el hel]]
      exact List.map_id els
    · rw [onunloadClearThumbnails]
      rw [show els.map _ = els.map id from
        List.map_congr_left fun el hel => by simp [h el hel]]
      exact List.map_id els

/-- C4 witness: clearing a DOM with no decorated element changes nothing. -/
theorem clearing_spec_witness :
    clearAllThumbnails [emptyCover] = [emptyCover] ∧
    onunloadClearThumbnails [emptyCover] = [emptyCover] :=
  (clearing_spec [emptyCover]).2.2 (by decide)

/-! ## C9: missing file-system adapter -/

lemma decorateFirstMatch_no_adapter (resolve : String → String)
    (cp ip fn : String) (cards : List Card) :
    (decorateFirstMatch false resolve cp ip fn cards).1 = cards ∧
    (decorateFirstMatch false resolve cp ip fn cards).2.2 =
      (decorateFirstMatch false resolve cp ip fn cards).2.1 := by
  induction cards with
  | nil => exact ⟨rfl, rfl⟩
  | cons c cs ih =>
    by_cases hmatch : cardMatches fn c = true
    · cases hcov : c.cover with
      | none => simp [decorateFirstMatch, hmatch, hcov]
      | some cov =>
        by_cases htr : attrTruthy cov.dataCanvasThumbnail = true
        · simp [decorateFirstMatch, hmatch, hcov, htr]
        · have hc : { c with cover := some cov } = c := by
            cases c
            simp_all
          simp [decorateFirstMatch, hmatch, hcov, htr, setCardThumbnail, hc]
    · simp only [decorateFirstMatch, hmatch, if_false, Bool.false_eq_true]
      exact ⟨by rw [ih.1], by rw [ih.2]⟩

lemma reconcileList_no_adapter (resolve : String → String)
    (data : List (String × String)) (cards : List Card) :
    (reconcileList false resolve data cards).1 = cards ∧
    (reconcileList false resolve data cards).2.2 =
      (reconcileList false resolve data cards).2.1 := by
  induction data generalizing cards with
  | nil => exact ⟨rfl, rfl⟩
  | cons e rest ih =>
    have hd := decorateFirstMatch_no_adapter resolve e.1 e.2 (getFileNameFromPath e.1) cards
    have hi := ih (decorateFirstMatch false resolve e.1 e.2 (getFileNameFromPath e.1) cards).1
    simp only [reconcileList]
    constructor
    · rw [hi.1, hd.1]
    · rw [hi.2, hd.2]

/-- C9: when the vault adapter is not a `FileSystemAdapter`, every
`setCardThumbnail` call reports an internal error and changes nothing: the
DOM is left exactly as it was (no background style, marker or image-path
attribute is set on any cover), and the `forEach` loop still processes every
map entry — one reported error per attempted card (`errorCount` equals the
number of attempts, `updatedCount`). -/
theorem no_adapter_skips_card_only (resolve : String → String)
    (data : List (String × String)) (dom : Option (List Card)) :
    (addCardThumbnails false resolve data dom).dom = dom ∧
    (addCardThumbnails false resolve data dom).errorCount =
      (addCardThumbnails false resolve data dom).updatedCount := by
  cases dom with
  | none => exact ⟨rfl, rfl⟩
  | some cards =>
    have h := reconcileList_no_adapter resolve data cards
    exact ⟨by simp [addCardThumbnails, h.1], by simp [addCardThumbnails, h.2]⟩

/-! ## C7: the debounce scheduler -/

lemma runCalls_chain (ts : List Nat) :
    ∀ (t : Nat) (decs : List Nat),
      List.Chain (fun a b => a < b ∧ b < a + 500) t ts →
      runCalls ts ⟨some (t + 500, TimerKind.update), decs⟩
        = ⟨some (ts.getLastD t + 500, TimerKind.update), decs⟩ := by
  induction ts with
  | nil => intro t decs _; rfl
  | cons t' ts' ih =>
    intro t decs hchain
    rcases hchain with _ | ⟨⟨hlt, hwin⟩, hrest⟩
    show runCalls ts' (scheduleUpdateAt t' (fireAllDue t' ⟨some (t + 500, TimerKind.update), decs⟩)) = _
    have hnotdue : fireAllDue t' ⟨some (t + 500, TimerKind.update), decs⟩
        = ⟨some (t + 500, TimerKind.update), decs⟩ := by
      have : ¬ (t + 500 ≤ t') := by omega
      simp [fireAllDue, fireDue, this]
    rw [hnotdue]
    show runCalls ts' ⟨some (t' + 500, TimerKind.update), decs⟩ = _
    rw [ih t' decs hrest]
    rw [List.getLastD_cons]

/-- C7: a burst of `scheduleUpdate()` calls in which every call falls within
the 500ms debounce window of the previous one produces exactly one decorate
pass, executed 500+200ms after the LAST call; rearming always replaces the
single pending-timer slot (`clearTimeout` before `setTimeout`), so the run
ends with no timer pending and exactly one recorded decorate execution. -/
theorem scheduleUpdate_debounce (t : Nat) (ts : List Nat)
    (hchain : List.Chain (fun a b => a < b ∧ b < a + 500) t ts) :
    runSystem (t :: ts) = ⟨none, [(t :: ts).getLastD 0 + 500 + 200]⟩ := by
  show fireOne (fireOne (runCalls (t :: ts) ⟨none, []⟩)) = _
  have h1 : runCalls (t :: ts) ⟨none, []⟩
      = runCalls ts ⟨some (t + 500, TimerKind.update), []⟩ := rfl
  rw [h1, runCalls_chain ts t [] hchain]
  show fireOne ⟨some (ts.getLastD t + 500 + 200, TimerKind.decorate), []⟩ = _
  show SchedState.mk none [ts.getLastD t + 500 + 200] = _
  rw [List.getLastD_cons]

/-- C7 witness: three calls at 0, 300 and 600 ms (each within 500ms of the
previous) yield exactly one decorate pass, at 1300 = 600 + 500 + 200. -/
theorem scheduleUpdate_debounce_witness :
    runSystem [0, 300, 600] = ⟨none, [1300]⟩ :=
  (scheduleUpdate_debounce 0 [300, 600]
    (List.Chain.cons (by omega) (List.Chain.cons (by omega) List.Chain.nil))).trans
    (by decide)

/-! ## C8: parse-failure isolation in the scanner -/

lemma scanLoop_append (vault : List VFile) (parse : String → Option CanvasData)
    (l1 l2 : List VFile) :
    ∀ m, scanLoop vault parse m (l1 ++ l2)
      = scanLoop vault parse (scanLoop vault parse m l1) l2 := by
  induction l1 with
  | nil => intro m; rfl
  | cons cf rest ih =>
    intro m
    show scanLoop vault parse m (cf :: (rest ++ l2)) = _
    cases hf : scanFile vault parse cf with
    | none =>
      simp only [scanLoop, hf]
      exact ih m
    | some kv =>
      simp only [scanLoop, hf]
      exact ih (mapSet m kv.1 kv.2)

/-- C8: a canvas file whose content fails to read or JSON-parse contributes
no map entry, and the scan of the whole vault equals the scan with that file
removed from the iteration — every other canvas document is still processed
and contributes exactly what it would have contributed. -/
theorem scan_parse_error_isolated (prev : List (String × String))
    (vault : List VFile) (parse : String → Option CanvasData) (f : VFile)
    (l1 l2 : List VFile)
    (hsplit : vault.filter (fun g => g.extension == "canvas") = l1 ++ f :: l2)
    (hfail : parse f.path = none) :
    scanFile vault parse f = none ∧
    scanCanvasFiles prev vault parse = scanLoop vault parse (mapClear prev) (l1 ++ l2) := by
  have hsf : scanFile vault parse f = none := by
    unfold scanFile
    rw [hfail]
  refine ⟨hsf, ?_⟩
  unfold scanCanvasFiles
  rw [hsplit, scanLoop_append, scanLoop_append]
  show scanLoop vault parse (scanLoop vault parse (mapClear prev) l1) (f :: l2) = _
  simp only [scanLoop, hsf]

/-- C8 witness: in a vault `A.canvas`, `Bad.canvas`, `B.canvas` where
`Bad.canvas` fails to parse, the bad file contributes nothing and the scan
equals the scan of the two good files, so both still contribute. -/
theorem scan_parse_error_isolated_witness :
    scanFile demoVaultErr demoParseErr ⟨"Bad.canvas", "canvas"⟩ = none ∧
    scanCanvasFiles [] demoVaultErr demoParseErr
      = scanLoop demoVaultErr demoParseErr (mapClear [])
          ([⟨"A.canvas", "canvas"⟩] ++ [⟨"B.canvas", "canvas"⟩]) :=
  scan_parse_error_isolated [] demoVaultErr demoParseErr ⟨"Bad.canvas", "canvas"⟩
    [⟨"A.canvas", "canvas"⟩] [⟨"B.canvas", "canvas"⟩] (by decide) (by decide)

/-! ## C2: idempotence of decoration -/

lemma cardMatches_update_cover (fn : String) (c : Card) (x : Option Cover) :
    cardMatches fn { c with cover := x } = cardMatches fn c := by
  cases c
  rfl

lemma attrTruthy_some_ne {cp : String} (h : cp ≠ "") : attrTruthy (some cp) = true := by
  simp [attrTruthy, h]

lemma setCardThumbnail_fields (res : String → String) (ip : String) (cov : Cover)
    (cp : String) :
    (setCardThumbnail true res ip cov cp).1.dataCanvasThumbnail = some cp ∧
    (setCardThumbnail true res ip cov cp).2 = false := by
  constructor <;> rfl

/-- An entry with comparison key `fn` is "blocked" on a card list when its
lookup either finds no matching card, or finds one whose cover is missing or
already carries a truthy marker — exactly the situations in which
`addCardThumbnails` does nothing for the entry. -/
def entryBlocked (fn : String) : List Card → Bool
  | [] => true
  | c :: cs =>
    if cardMatches fn c then
      match c.cover with
      | none => true
      | some cov => attrTruthy cov.dataCanvasThumbnail
    else entryBlocked fn cs

lemma decorateFirstMatch_of_blocked (fsA : Bool) (res : String → String)
    (cp ip fn : String) :
    ∀ cards, entryBlocked fn cards = true →
      decorateFirstMatch fsA res cp ip fn cards = (cards, false, false) := by
  intro cards
  induction cards with
  | nil => intro _; rfl
  | cons c cs ih =>
    intro h
    cases hm : cardMatches fn c with
    | true =>
      cases hcov : c.cover with
      | none => simp [decorateFirstMatch, hm, hcov]
      | some cov =>
        have htr : attrTruthy cov.dataCanvasThumbnail = true := by
          simpa [entryBlocked, hm, hcov] using h
        simp [decorateFirstMatch, hm, hcov, htr]
    | false =>
      have h' : entryBlocked fn cs = true := by
        simpa [entryBlocked, hm] using h
      simp [decorateFirstMatch, hm, ih h']

lemma decorateFirstMatch_blocks_self (res : String → String)
    (cp ip fn : String) (hcp : cp ≠ "") :
    ∀ cards, entryBlocked fn (decorateFirstMatch true res cp ip fn cards).1 = true := by
  intro cards
  induction cards with
  | nil => rfl
  | cons c cs ih =>
    cases hm : cardMatches fn c with
    | true =>
      cases hcov : c.cover with
      | none => simp [decorateFirstMatch, hm, hcov, entryBlocked]
      | some cov =>
        cases htr : attrTruthy cov.dataCanvasThumbnail with
        | true => simp [decorateFirstMatch, hm, hcov, htr, entryBlocked]
        | false =>
          simp only [decorateFirstMatch, hm, if_true, hcov, htr, Bool.false_eq_true,
            if_false]
          simp only [entryBlocked, cardMatches_update_cover, hm, if_true]
          rw [(setCardThumbnail_fields res ip cov cp).1]
          exact attrTruthy_some_ne hcp
    | false =>
      simp only [decorateFirstMatch, hm, Bool.false_eq_true, if_false]
      simpa [entryBlocked, hm] using ih

lemma entryBlocked_preserved (res : String → String) (cp' ip' fn' fn : String)
    (hcp' : cp' ≠ "") :
    ∀ cards, entryBlocked fn cards = true →
      entryBlocked fn (decorateFirstMatch true res cp' ip' fn' cards).1 = true := by
  intro cards
  induction cards with
  | nil => intro _; rfl
  | cons c cs ih =>
    intro h
    cases hm' : cardMatches fn' c with
    | true =>
      cases hcov : c.cover with
      | none => simpa [decorateFirstMatch, hm', hcov] using h
      | some cov =>
        cases htr : attrTruthy cov.dataCanvasThumbnail with
        | true => simpa [decorateFirstMatch, hm', hcov, htr] using h
        | false =>
          simp only [decorateFirstMatch, hm', if_true, hcov, htr, Bool.false_eq_true,
            if_false]
          cases hm : cardMatches fn c with
          | true =>
            simp only [entryBlocked, cardMatches_update_cover, hm, if_true]
            rw [(setCardThumbnail_fields res ip' cov cp').1]
            exact attrTruthy_some_ne hcp'
          | false =>
            have h' : entryBlocked fn cs = true := by
              simpa [entryBlocked, hm] using h
            simpa [entryBlocked, cardMatches_update_cover, hm] using h'
    | false =>
      simp only [decorateFirstMatch, hm', Bool.false_eq_true, if_false]
      cases hm : cardMatches fn c with
      | true => simpa [entryBlocked, hm] using h
      | false =>
        have h' : entryBlocked fn cs = true := by
          simpa [entryBlocked, hm] using h
        simpa [entryBlocked, hm] using ih h'

lemma entryBlocked_preserved_list (res : String → String) (fn : String) :
    ∀ (data : List (String × String)), (∀ e ∈ data, e.1 ≠ "") →
      ∀ cards, entryBlocked fn cards = true →
        entryBlocked fn (reconcileList true res data cards).1 = true := by
  intro data
  induction data with
  | nil => intro _ cards h; exact h
  | cons e rest ih =>
    intro hkeys cards h
    have hcp : e.1 ≠ "" := hkeys e (by simp)
    have hstep := entryBlocked_preserved res e.1 e.2 (getFileNameFromPath e.1) fn hcp cards h
    have hrest : ∀ e' ∈ rest, e'.1 ≠ "" := fun e' he' => hkeys e' (by simp [he'])
    simpa [reconcileList] using
      ih hrest (decorateFirstMatch true res e.1 e.2 (getFileNameFromPath e.1) cards).1 hstep

lemma reconcileList_blocks_all (res : String → String) :
    ∀ (data : List (String × String)), (∀ e ∈ data, e.1 ≠ "") →
      ∀ cards, ∀ e ∈ data,
        entryBlocked (getFileNameFromPath e.1) (reconcileList true res data cards).1 = true := by
  intro data
  induction data with
  | nil => intro _ cards e he; exact absurd he (by simp)
  | cons e0 rest ih =>
    intro hkeys cards e he
    have hrest : ∀ e' ∈ rest, e'.1 ≠ "" := fun e' he' => hkeys e' (by simp [he'])
    rcases List.mem_cons.mp he with rfl | he'
    · have hself := decorateFirstMatch_blocks_self res e.1 e.2 (getFileNameFromPath e.1)
        (hkeys e (by simp)) cards
      simpa [reconcileList] using
        entryBlocked_preserved_list res (getFileNameFromPath e.1) rest hrest _ hself
    · simpa [reconcileList] using
        ih hrest (decorateFirstMatch true res e0.1 e0.2 (getFileNameFromPath e0.1) cards).1 e he'

lemma reconcileList_of_all_blocked (fsA : Bool) (res : String → String) :
    ∀ (data : List (String × String)) (cards : List Card),
      (∀ e ∈ data, entryBlocked (getFileNameFromPath e.1) cards = true) →
      reconcileList fsA res data cards = (cards, 0, 0) := by
  intro data
  induction data with
  | nil => intro cards _; rfl
  | cons e rest ih =>
    intro cards h
    have hstep := decorateFirstMatch_of_blocked fsA res e.1 e.2 (getFileNameFromPath e.1)
      cards (h e (by simp))
    have hrest := ih cards fun e' he' => h e' (by simp [he'])
    simp [reconcileList, hstep, hrest]

/-- C2 counterexample: for the map entry with the empty canvas path, the
decorated cover carries the marker attribute with value `""`, which the
source's JS-truthiness test treats as NOT decorated, so a second reconcile
call with the same map and the resulting DOM re-decorates the same card and
reports `updatedCount = 1`, not `0` — refuting the claim for covers whose
marker attribute is present but empty. -/
theorem reconcile_second_call_nonzero :
    (addCardThumbnails true (fun s => s) [("", "img.png")]
      (addCardThumbnails true (fun s => s) [("", "img.png")]
        (some [⟨some "Alpha", some emptyCover⟩])).dom).updatedCount = 1 := by
  decide

/-- C2 (amended): for maps whose canvas-path keys are all nonempty (as every
map produced by scanning real vault paths is) and a file-system adapter, a
cover element carrying the marker attribute with a nonempty value is always
skipped, so a second `addCardThumbnails` call with the same map and the DOM
state left by the first call decorates zero cards: it reports
`updatedCount = 0`, no errors, and leaves the DOM unchanged. -/
theorem reconcile_idempotent (res : String → String)
    (data : List (String × String)) (cards : List Card)
    (hkeys : ∀ e ∈ data, e.1 ≠ "") :
    addCardThumbnails true res data (addCardThumbnails true res data (some cards)).dom
      = ⟨(addCardThumbnails true res data (some cards)).dom, 0, 0⟩ := by
  have hblocked := reconcileList_blocks_all res data hkeys cards
  have hsecond := reconcileList_of_all_blocked true res data
    (reconcileList true res data cards).1 hblocked
  show addCardThumbnails true res data (some (reconcileList true res data cards).1) = _
  simp [addCardThumbnails, hsecond]

/-- C2 witness: a one-entry map with a nonempty key; the second call is a
no-op reporting zero updates. -/
theorem reconcile_idempotent_witness :
    addCardThumbnails true (fun s => s) [("A.canvas", "img.png")]
      (addCardThumbnails true (fun s => s) [("A.canvas", "img.png")]
        (some [⟨some "A", some emptyCover⟩])).dom
      = ⟨(addCardThumbnails true (fun s => s) [("A.canvas", "img.png")]
            (some [⟨some "A", some emptyCover⟩])).dom, 0, 0⟩ :=
  reconcile_idempotent (fun s => s) [("A.canvas", "img.png")]
    [⟨some "A", some emptyCover⟩] (by decide)

/-! ## C3: updatedCount vs. newly decorated covers -/

/-- How one reconcile call may evolve a single card: its name text is
untouched, and its cover is either unchanged or goes from a falsy marker
(undecorated) to a truthy marker (decorated). -/
def coverEvol (before after : Card) : Prop :=
  after.fileNameText = before.fileNameText ∧
    (after.cover = before.cover ∨
      (coverTruthy before.cover = false ∧ coverTruthy after.cover = true))

/-- Number of cards whose cover carries a truthy decoration marker. -/
def truthyCount (cards : List Card) : Nat :=
  cards.countP fun c => coverTruthy c.cover

lemma coverEvol_refl (c : Card) : coverEvol c c := ⟨rfl, Or.inl rfl⟩

lemma coverEvol_trans {x y z : Card} (h1 : coverEvol x y) (h2 : coverEvol y z) :
    coverEvol x z := by
  obtain ⟨hn1, hc1⟩ := h1
  obtain ⟨hn2, hc2⟩ := h2
  refine ⟨hn2.trans hn1, ?_⟩
  rcases hc1 with he1 | ⟨hf1, ht1⟩
  · rcases hc2 with he2 | ⟨hf2, ht2⟩
    · exact Or.inl (he2.trans he1)
    · exact Or.inr ⟨he1 ▸ hf2, ht2⟩
  · rcases hc2 with he2 | ⟨hf2, ht2⟩
    · exact Or.inr ⟨hf1, he2 ▸ ht1⟩
    · rw [ht1] at hf2
      exact absurd hf2 (by simp)

lemma forall₂_coverEvol_refl (l : List Card) : List.Forall₂ coverEvol l l :=
  List.forall₂_same.mpr fun c _ => coverEvol_refl c

lemma forall₂_coverEvol_trans :
    ∀ {a b c : List Card}, List.Forall₂ coverEvol a b → List.Forall₂ coverEvol b c →
      List.Forall₂ coverEvol a c := by
  intro a b c hab
  induction hab generalizing c with
  | nil =>
    intro hbc
    cases hbc
    exact List.Forall₂.nil
  | cons h t ih =>
    intro hbc
    cases hbc with
    | cons h2 t2 => exact List.Forall₂.cons (coverEvol_trans h h2) (ih t2)

lemma decorateFirstMatch_evol (res : String → String) (cp ip fn : String)
    (hcp : cp ≠ "") (cards : List Card) :
    List.Forall₂ coverEvol cards (decorateFirstMatch true res cp ip fn cards).1 ∧
    truthyCount (decorateFirstMatch true res cp ip fn cards).1
      = truthyCount cards
        + (if (decorateFirstMatch true res cp ip fn cards).2.1 then 1 else 0) ∧
    (decorateFirstMatch true res cp ip fn cards).2.2 = false := by
  induction cards with
  | nil => exact ⟨List.Forall₂.nil, rfl, rfl⟩
  | cons c cs ih =>
    cases hm : cardMatches fn c with
    | true =>
      cases hcov : c.cover with
      | none =>
        simp only [decorateFirstMatch, hm, if_true, hcov]
        refine ⟨forall₂_coverEvol_refl _, ?_, ?_⟩ <;> simp
      | some cov =>
        cases htr : attrTruthy cov.dataCanvasThumbnail with
        | true =>
          simp only [decorateFirstMatch, hm, if_true, hcov, htr]
          refine ⟨forall₂_coverEvol_refl _, ?_, ?_⟩ <;> simp
        | false =>
          have hnewTr : coverTruthy (some (setCardThumbnail true res ip cov cp).1)
              = true := by
            show attrTruthy (setCardThumbnail true res ip cov cp).1.dataCanvasThumbnail
                = true
            rw [(setCardThumbnail_fields res ip cov cp).1]
            exact attrTruthy_some_ne hcp
          have hold : coverTruthy c.cover = false := by
            rw [hcov]
            simpa [coverTruthy] using htr
          simp only [decorateFirstMatch, hm, if_true, hcov, htr, Bool.false_eq_true,
            if_false]
          refine ⟨?_, ?_, (setCardThumbnail_fields res ip cov cp).2⟩
          · exact List.Forall₂.cons ⟨rfl, Or.inr ⟨hold, hnewTr⟩⟩ (forall₂_coverEvol_refl cs)
          · simp only [truthyCount, List.countP_cons]
            rw [hnewTr, hold]
            simp
    | false =>
      simp only [decorateFirstMatch, hm, Bool.false_eq_true, if_false]
      refine ⟨List.Forall₂.cons (coverEvol_refl c) ih.1, ?_, ih.2.2⟩
      simp only [truthyCount, List.countP_cons] at ih ⊢
      omega
  
lemma reconcileList_evol (res : String → String) :
    ∀ (data : List (String × String)), (∀ e ∈ data, e.1 ≠ "") →
      ∀ cards : List Card,
        List.Forall₂ coverEvol cards (reconcileList true res data cards).1 ∧
        truthyCount (reconcileList true res data cards).1
          = truthyCount cards + (reconcileList true res data cards).2.1 ∧
        (reconcileList true res data cards).2.2 = 0 := by
  intro data
  induction data with
  | nil => intro _ cards; exact ⟨forall₂_coverEvol_refl cards, by simp [reconcileList], rfl⟩
  | cons e rest ih =>
    intro hkeys cards
    have hcp : e.1 ≠ "" := hkeys e (by simp)
    have hrest : ∀ e' ∈ rest, e'.1 ≠ "" := fun e' he' => hkeys e' (by simp [he'])
    have hstep := decorateFirstMatch_evol res e.1 e.2 (getFileNameFromPath e.1) hcp cards
    have hi := ih hrest (decorateFirstMatch true res e.1 e.2 (getFileNameFromPath e.1) cards).1
    simp only [reconcileList]
    refine ⟨forall₂_coverEvol_trans hstep.1 hi.1, ?_, ?_⟩
    · rw [hi.2.1, hstep.2.1]
      omega
    · rw [hi.2.2, hstep.2.2]
      simp

/-- C3 counterexample: with no file-system adapter, `addCardThumbnails` still
increments `updatedCount` for each matching undecorated cover, while
`setCardThumbnail` sets nothing — here one entry yields `updatedCount = 1`
although the DOM (and hence every cover) is completely unchanged, refuting
`updatedCount` = "number of cover elements on which the background image and
marker attributes were set in this call". -/
theorem updatedCount_without_decoration :
    (addCardThumbnails false (fun s => s) [("A.canvas", "img.png")]
      (some [⟨some "A", some emptyCover⟩])).updatedCount = 1 ∧
    (addCardThumbnails false (fun s => s) [("A.canvas", "img.png")]
      (some [⟨some "A", some emptyCover⟩])).dom = some [⟨some "A", some emptyCover⟩] := by
  exact ⟨by decide, by decide⟩

/-- C3 (amended): `updatedCount` counts the entry-processing events that
found a matching card with a present, unmarked cover (i.e. the
`setCardThumbnail` calls).  When the adapter is a `FileSystemAdapter` and
every map key is nonempty, this equals the number of cover elements newly
decorated in the call: every card either keeps its cover unchanged or goes
from unmarked to marked, and the number of marked covers grows by exactly
`updatedCount`. -/
theorem updatedCount_newly_decorated (res : String → String)
    (data : List (String × String)) (cards : List Card)
    (hkeys : ∀ e ∈ data, e.1 ≠ "") :
    ∃ after, (addCardThumbnails true res data (some cards)).dom = some after ∧
      List.Forall₂ coverEvol cards after ∧
      truthyCount after
        = truthyCount cards + (addCardThumbnails true res data (some cards)).updatedCount :=
  ⟨(reconcileList true res data cards).1, rfl,
    (reconcileList_evol res data hkeys cards).1,
    (reconcileList_evol res data hkeys cards).2.1⟩

/-- C3 witness: one entry decorating one card; the marked-cover count rises
by exactly the reported `updatedCount`. -/
theorem updatedCount_newly_decorated_witness :
    ∃ after,
      (addCardThumbnails true (fun s => s) [("A.canvas", "img.png")]
        (some [⟨some "A", some emptyCover⟩])).dom = some after ∧
      List.Forall₂ coverEvol [⟨some "A", some emptyCover⟩] after ∧
      truthyCount after
        = truthyCount [⟨some "A", some emptyCover⟩]
          + (addCardThumbnails true (fun s => s) [("A.canvas", "img.png")]
              (some [⟨some "A", some emptyCover⟩])).updatedCount :=
  updatedCount_newly_decorated (fun s => s) [("A.canvas", "img.png")]
    [⟨some "A", some emptyCover⟩] (by decide)

/-! ## C1: scanner correctness -/


lemma scanFile_fst (vault : List VFile) (parse : String → Option CanvasData)
    (cf : VFile) (kv : String × String) (h : scanFile vault parse cf = some kv) :
    kv.1 = cf.path := by
  unfold scanFile at h
  cases hp : parse cf.path with
  | none => simp [hp] at h
  | some d =>
    simp only [hp] at h
    cases hn : d.nodes with
    | none => simp [hn] at h
    | some ns =>
      simp only [hn] at h
      obtain ⟨img, _, hkv⟩ := Option.map_eq_some'.mp h
      rw [← hkv]

lemma mapSet_append {m : List (String × String)} {k : String}
    (h : k ∉ m.map Prod.fst) (v : String) : mapSet m k v = m ++ [(k, v)] := by
  unfold mapSet
  have hc : (m.map Prod.fst).contains k = false := by
    cases hk : (m.map Prod.fst).contains k with
    | false => rfl
    | true =>
      obtain ⟨a', ha', hbeq⟩ := List.contains_iff_exists_mem_beq.mp hk
      exact absurd ((eq_of_beq hbeq).symm ▸ ha') h
  rw [hc]
  simp

lemma scanLoop_fresh (vault : List VFile) (parse : String → Option CanvasData) :
    ∀ (l : List VFile) (m : List (String × String)),
      (l.map VFile.path).Nodup → (∀ cf ∈ l, cf.path ∉ m.map Prod.fst) →
      scanLoop vault parse m l = m ++ l.filterMap (scanFile vault parse) := by
  intro l
  induction l with
  | nil => intro m _ _; simp [scanLoop]
  | cons cf rest ih =>
    intro m hnd hdisj
    have hnd' : (rest.map VFile.path).Nodup := (List.nodup_cons.mp hnd).2
    have hhead : cf.path ∉ rest.map VFile.path := (List.nodup_cons.mp hnd).1
    cases hsf : scanFile vault parse cf with
    | none =>
      rw [show scanLoop vault parse m (cf :: rest) = scanLoop vault parse m rest from by
        simp [scanLoop, hsf]]
      rw [ih m hnd' fun c hc => hdisj c (by simp [hc])]
      simp [List.filterMap_cons_none hsf]
    | some kv =>
      have hk1 : kv.1 = cf.path := scanFile_fst vault parse cf kv hsf
      have hknot : kv.1 ∉ m.map Prod.fst := hk1 ▸ hdisj cf (by simp)
      rw [show scanLoop vault parse m (cf :: rest)
          = scanLoop vault parse (mapSet m kv.1 kv.2) rest from by simp [scanLoop, hsf]]
      rw [mapSet_append hknot kv.2]
      rw [ih (m ++ [(kv.1, kv.2)]) hnd' ?_]
      · simp [List.filterMap_cons_some hsf]
      · intro c hc
        simp only [List.map_append, List.mem_append]
        rintro (hin | hin)
        · exact hdisj c (by simp [hc]) hin
        · simp only [List.map_cons, List.map_nil, List.mem_singleton] at hin
          rw [hk1] at hin
          exact hhead (hin ▸ List.mem_map_of_mem VFile.path hc)

lemma mapLookup_cons (e : String × String) (p : String) (t : List (String × String)) :
    mapLookup (e :: t) p = if e.1 == p then some e.2 else mapLookup t p := by
  unfold mapLookup
  cases hk : (e.1 == p) with
  | true => simp [List.find?_cons_of_pos, hk]
  | false => simp [List.find?_cons_of_neg, hk]

lemma mapLookup_filterMap (vault : List VFile) (parse : String → Option CanvasData) :
    ∀ (l : List VFile), (l.map VFile.path).Nodup → ∀ (p v : String),
      (mapLookup (l.filterMap (scanFile vault parse)) p = some v ↔
        ∃ cf, cf ∈ l ∧ cf.path = p ∧ scanFile vault parse cf = some (p, v)) := by
  intro l
  induction l with
  | nil =>
    intro _ p v
    simp [mapLookup]
  | cons cf rest ih =>
    intro hnd p v
    have hnd' : (rest.map VFile.path).Nodup := (List.nodup_cons.mp hnd).2
    have hhead : cf.path ∉ rest.map VFile.path := (List.nodup_cons.mp hnd).1
    cases hsf : scanFile vault parse cf with
    | none =>
      rw [List.filterMap_cons_none hsf, ih hnd' p v]
      constructor
      · rintro ⟨c, hc, hcp, hcs⟩
        exact ⟨c, by simp [hc], hcp, hcs⟩
      · rintro ⟨c, hc, hcp, hcs⟩
        rcases List.mem_cons.mp hc with rfl | hc'
        · rw [hsf] at hcs
          exact absurd hcs (by simp)
        · exact ⟨c, hc', hcp, hcs⟩
    | some kv =>
      have hk1 : kv.1 = cf.path := scanFile_fst vault parse cf kv hsf
      rw [List.filterMap_cons_some hsf, mapLookup_cons]
      cases hp : (kv.1 == p) with
      | true =>
        have hkp : kv.1 = p := by simpa using hp
        simp only [if_true]
        constructor
        · intro hv
          have hv' : kv.2 = v := by simpa using hv
          have hkve : (p, v) = kv := by
            cases kv
            simp_all
          refine ⟨cf, by simp, hk1 ▸ hkp, ?_⟩
          rw [hkve]
          exact hsf
        · rintro ⟨c, hc, hcp, hcs⟩
          rcases List.mem_cons.mp hc with rfl | hc'
          · rw [hsf] at hcs
            have : kv = (p, v) := by simpa using hcs
            rw [this]
          · have hcpath : c.path = cf.path := by
              rw [hcp, ← hkp, hk1]
            exact absurd (hcpath ▸ List.mem_map_of_mem VFile.path hc') hhead
      | false =>
        have hkp : ¬ kv.1 = p := by simpa using hp
        simp only [Bool.false_eq_true, if_false]
        rw [ih hnd' p v]
        constructor
        · rintro ⟨c, hc, hcp, hcs⟩
          exact ⟨c, by simp [hc], hcp, hcs⟩
        · rintro ⟨c, hc, hcp, hcs⟩
          rcases List.mem_cons.mp hc with rfl | hc'
          · exact absurd (hk1.trans hcp) hkp
          · exact ⟨c, hc', hcp, hcs⟩

lemma scanFile_eq_some_iff (vault : List VFile) (parse : String → Option CanvasData)
    (cf : VFile) (p v : String) :
    scanFile vault parse cf = some (p, v) ↔
      cf.path = p ∧ ∃ d ns, parse cf.path = some d ∧ d.nodes = some ns ∧
        firstImage vault ns = some v := by
  constructor
  · intro h
    have hk1 : p = cf.path := by
      have := scanFile_fst vault parse cf (p, v) h
      simpa using this
    unfold scanFile at h
    cases hparse : parse cf.path with
    | none => simp [hparse] at h
    | some d =>
      simp only [hparse] at h
      cases hn : d.nodes with
      | none => simp [hn] at h
      | some ns =>
        simp only [hn] at h
        obtain ⟨img, himg, hkv⟩ := Option.map_eq_some'.mp h
        have himgv : img = v := by
          have := congrArg Prod.snd hkv
          simpa using this
        exact ⟨hk1.symm, d, ns, rfl, hn, himgv ▸ himg⟩
  · rintro ⟨hpath, d, ns, hparse, hnodes, himg⟩
    subst hpath
    simp [scanFile, hparse, hnodes, himg]

lemma firstImage_eq_some_iff (vault : List VFile) (ns : List CanvasNode) (v : String) :
    firstImage vault ns = some v ↔
      ∃ pre n post, ns = pre ++ n :: post ∧ (∀ m ∈ pre, nodeImage vault m = none) ∧
        nodeImage vault n = some v := by
  induction ns with
  | nil =>
    simp only [firstImage]
    constructor
    · intro h
      exact absurd h (by simp)
    · rintro ⟨pre, n, post, hdec, _, _⟩
      exact absurd hdec (by simp)
  | cons n0 rest ih =>
    cases h0 : nodeImage vault n0 with
    | some w =>
      rw [show firstImage vault (n0 :: rest) = some w from by simp [firstImage, h0]]
      constructor
      · intro hv
        have hwv : w = v := by simpa using hv
        subst hwv
        exact ⟨[], n0, rest, rfl, by simp, h0⟩
      · rintro ⟨pre, n, post, hdec, hpre, hn⟩
        cases pre with
        | nil =>
          have hn0 : n0 = n := by
            have := congrArg (fun l => l.headD n0) hdec
            simpa using this
          rw [hn0, hn] at h0
          exact (by simpa using h0.symm : (some w : Option String) = some v)
        | cons q pre' =>
          have hq : n0 = q := by
            have := congrArg (fun l => l.headD n0) hdec
            simpa using this
          rw [hq] at h0
          exact absurd (hpre q (by simp)) (by simp [h0])
    | none =>
      rw [show firstImage vault (n0 :: rest) = firstImage vault rest from by
        simp [firstImage, h0]]
      rw [ih]
      constructor
      · rintro ⟨pre, n, post, hdec, hpre, hn⟩
        refine ⟨n0 :: pre, n, post, by simp [hdec], ?_, hn⟩
        intro m hm
        rcases List.mem_cons.mp hm with rfl | hm'
        · exact h0
        · exact hpre m hm'
      · rintro ⟨pre, n, post, hdec, hpre, hn⟩
        cases pre with
        | nil =>
          have hn0 : n0 = n := by
            have := congrArg (fun l => l.headD n0) hdec
            simpa using this
          rw [hn0, hn] at h0
          exact absurd h0 (by simp)
        | cons q pre' =>
          have htail : rest = pre' ++ n :: post := by
            have := congrArg List.tail hdec
            simpa using this
          exact ⟨pre', n, post, htail, fun m hm => hpre m (by simp [hm]), hn⟩

lemma nodeImage_eq_some_iff (vault : List VFile) (n : CanvasNode) (v : String) :
    nodeImage vault n = some v ↔
      ∃ fp nf, n.type = some "file" ∧ n.file = some fp ∧ fp ≠ "" ∧
        getAbstractFileByPath vault fp = some nf ∧
        pictureExtensions.contains (lowerStr nf.extension) = true ∧ v = nf.path := by
  cases ht : n.type with
  | none => simp [nodeImage, ht]
  | some t =>
    cases hf : n.file with
    | none => simp [nodeImage, ht, hf]
    | some fp =>
      simp only [nodeImage, ht, hf]
      by_cases hcond : (t == "file" && !(fp == "")) = true
      · rw [if_pos hcond]
        have htf : t = "file" := by
          have h1 := (Bool.and_eq_true _ _).mp hcond
          simpa using h1.1
        have hfpne : fp ≠ "" := by
          have h2 := ((Bool.and_eq_true _ _).mp hcond).2
          intro he
          rw [he] at h2
          simp at h2
        subst htf
        cases hlk : getAbstractFileByPath vault fp with
        | none =>
          show (none : Option String) = some v ↔ _
          constructor
          · intro hv
            exact absurd hv (by simp)
          · rintro ⟨fp', nf', _, hfp', _, hlk', _, _⟩
            injection hfp' with hfp'
            subst hfp'
            rw [hlk] at hlk'
            exact absurd hlk' (by simp)
        | some nf =>
          show (if pictureExtensions.contains (lowerStr nf.extension) = true
              then some nf.path else none) = some v ↔ _
          by_cases hpx : pictureExtensions.contains (lowerStr nf.extension) = true
          · rw [if_pos hpx]
            constructor
            · intro hv
              have hv' : nf.path = v := by simpa using hv
              exact ⟨fp, nf, rfl, rfl, hfpne, hlk, hpx, hv'.symm⟩
            · rintro ⟨fp', nf', _, hfp', _, hlk', hpx', hv⟩
              injection hfp' with hfp'
              subst hfp'
              rw [hlk] at hlk'
              injection hlk' with hlk'
              subst hlk'
              rw [hv]
          · rw [if_neg hpx]
            constructor
            · intro hv
              exact absurd hv (by simp)
            · rintro ⟨fp', nf', _, hfp', _, hlk', hpx', _⟩
              injection hfp' with hfp'
              subst hfp'
              rw [hlk] at hlk'
              injection hlk' with hlk'
              subst hlk'
              exact absurd hpx' hpx
      · rw [if_neg hcond]
        constructor
        · intro hv
          exact absurd hv (by simp)
        · rintro ⟨fp', nf', hty, hfp', hne, _, _, _⟩
          injection hty with hty
          injection hfp' with hfp'
          subst hfp'
          exact absurd
            (show (t == "file" && !(fp == "")) = true by rw [hty]; simp [hne]) hcond

/-- C1: assuming the vault's canvas files have pairwise distinct paths, the
map produced by a scan contains the entry `p ↦ v` if and only if `p` is the
path of a canvas file whose content parses with a `nodes` array in which some
node qualifies — type `"file"`, non-empty target that exists in the vault
with a case-insensitively recognized picture extension — every earlier node
does not qualify, and `v` is the referenced path of that FIRST qualifying
node; moreover the result is independent of the previous map contents (the
map is cleared, then repopulated). -/
theorem scanCanvasFiles_spec (prev : List (String × String)) (vault : List VFile)
    (parse : String → Option CanvasData)
    (hnd : ((vault.filter fun f => f.extension == "canvas").map VFile.path).Nodup) :
    (∀ p v, mapLookup (scanCanvasFiles prev vault parse) p = some v ↔
      ∃ cf, cf ∈ vault ∧ cf.extension = "canvas" ∧ cf.path = p ∧
        ∃ d ns, parse cf.path = some d ∧ d.nodes = some ns ∧
          ∃ pre n post, ns = pre ++ n :: post ∧
            (∀ m ∈ pre, nodeImage vault m = none) ∧
            ∃ fp nf, n.type = some "file" ∧ n.file = some fp ∧ fp ≠ "" ∧
              getAbstractFileByPath vault fp = some nf ∧
              pictureExtensions.contains (lowerStr nf.extension) = true ∧ v = nf.path) ∧
    (∀ prev', scanCanvasFiles prev vault parse = scanCanvasFiles prev' vault parse) := by
  have hform : scanCanvasFiles prev vault parse
      = (vault.filter fun f => f.extension == "canvas").filterMap
          (scanFile vault parse) := by
    unfold scanCanvasFiles
    rw [scanLoop_fresh vault parse _ (mapClear prev) hnd (by simp [mapClear])]
    simp [mapClear]
  refine ⟨?_, fun prev' => rfl⟩
  intro p v
  rw [hform, mapLookup_filterMap vault parse _ hnd p v]
  constructor
  · rintro ⟨cf, hmem, hpath, hsf⟩
    obtain ⟨hmv, hext⟩ := List.mem_filter.mp hmem
    obtain ⟨_, d, ns, hparse, hnodes, hfi⟩ :=
      (scanFile_eq_some_iff vault parse cf p v).mp hsf
    obtain ⟨pre, n, post, hns, hpre, hni⟩ := (firstImage_eq_some_iff vault ns v).mp hfi
    obtain ⟨fp, nf, hty, hfile, hne, hlk, hpx, hv⟩ :=
      (nodeImage_eq_some_iff vault n v).mp hni
    exact ⟨cf, hmv, by simpa using hext, hpath, d, ns, hparse, hnodes, pre, n, post,
      hns, hpre, fp, nf, hty, hfile, hne, hlk, hpx, hv⟩
  · rintro ⟨cf, hmv, hext, hpath, d, ns, hparse, hnodes, pre, n, post, hns, hpre,
      fp, nf, hty, hfile, hne, hlk, hpx, hv⟩
    refine ⟨cf, List.mem_filter.mpr ⟨hmv, by simp [hext]⟩, hpath, ?_⟩
    apply (scanFile_eq_some_iff vault parse cf p v).mpr
    refine ⟨hpath, d, ns, hparse, hnodes, ?_⟩
    apply (firstImage_eq_some_iff vault ns v).mpr
    exact ⟨pre, n, post, hns, hpre,
      (nodeImage_eq_some_iff vault n v).mpr ⟨fp, nf, hty, hfile, hne, hlk, hpx, hv⟩⟩

/-- C1 witness: the spec's §8 example — `Projects/Alpha.canvas` with a png
node followed by a pdf node maps to `Projects/cover.png`, derived through
the theorem at the concrete vault. -/
theorem scanCanvasFiles_spec_witness :
    mapLookup (scanCanvasFiles [] demoVault demoParse) "Projects/Alpha.canvas"
      = some "Projects/cover.png" :=
  ((scanCanvasFiles_spec [] demoVault demoParse (by decide)).1
      "Projects/Alpha.canvas" "Projects/cover.png").mpr
    ⟨⟨"Projects/Alpha.canvas", "canvas"⟩, by decide, rfl, rfl,
      ⟨some [⟨some "file", some "Projects/cover.png"⟩,
             ⟨some "file", some "Projects/other.pdf"⟩]⟩,
      [⟨some "file", some "Projects/cover.png"⟩,
       ⟨some "file", some "Projects/other.pdf"⟩],
      by decide, rfl,
      [], ⟨some "file", some "Projects/cover.png"⟩,
      [⟨some "file", some "Projects/other.pdf"⟩], rfl,
      by simp,
      "Projects/cover.png", ⟨"Projects/cover.png", "png"⟩,
      rfl, rfl, by decide, by decide, by decide, rfl⟩
